import Mathlib

/-!
Verification of the soulflame networking core.

Shallow embedding of the packet codec of the soulflame server:

* `src/net_io.rs` — VarInt / VarLong / i64 wire primitives,
* `src/network/encode.rs` — `PacketEncoder` / `PacketDecoder` (framing),
* `src/net_io/packet.rs` + `src/protocol/**` — the staged packet schema
  (instantiated at the `InStatus` stage union),
* `src/util.rs` — `Identifier` parsing,
* `src/chat.rs` — `Component` length cap,
* `src/network.rs` — `PlayerCount`.

Bytes are modelled as natural numbers (`< 256` for all bytes produced by the
encoders); machine integers are modelled as `Nat`/`Int` with explicit
wrap-around (`% 2^32`, `% 2^64`) at the points where the Rust code wraps.
-/

namespace Soulflame

/-- A wire byte, `0 ≤ b < 256` for every byte the encoders emit. -/
abbrev Byte := Nat

/-- Error kinds of the codec (`anyhow` errors in the source, distinguished here
by the site that raises them). -/
inductive NetErr
  | eof
  | tooLong
  | unknownPacketId
  | overLimit
  deriving DecidableEq

/-- The LEB128-style write loop shared by `VarInt::pack_write` and
`VarLong::pack_write` (src/net_io.rs lines 90-104 and 141-154):
emit `v & 0x7f`, shift `v` right by 7, set the continuation bit while the
remaining value is nonzero.  The loop runs at most `⌈bits/7⌉` times; the
first argument is a structural-recursion bound, and `varWriteLoop` below
supplies a bound (`v + 1`) that is always sufficient. -/
def varWriteGo : Nat → Nat → List Byte
  | 0, _ => []
  | fuel + 1, v =>
    let temp := v &&& 127
    let v' := v >>> 7
    if v' = 0 then [temp] else (temp ||| 128) :: varWriteGo fuel v'

/-- The write loop of the source, with the fuel discharged. -/
def varWriteLoop (v : Nat) : List Byte := varWriteGo (v + 1) v

/-- The read loop shared by `VarInt::pack_read` and `VarLong::pack_read`
(src/net_io.rs lines 110-131 and 161-183), on the unsigned `W`-bit pattern:
read a byte (end of input is an error), OR in its low 7 bits shifted left by
`7 * size` — `overflowing_shl` masks the shift amount to the word size and
drops the bits shifted out, hence the `% W` and `% 2 ^ W` — then fail once
more than `maxBytes` bytes have been read, and stop on a clear high bit. -/
def varReadLoop (W maxBytes : Nat) : List Byte → Nat → Nat → Except NetErr (Nat × List Byte)
  | [], _, _ => .error .eof
  | r :: rest, size, v =>
    let value := r &&& 127
    let v' := v ||| value <<< (7 * size % W) % 2 ^ W
    if size + 1 > maxBytes then .error .tooLong
    else if r &&& 128 = 0 then .ok (v', rest)
    else varReadLoop W maxBytes rest (size + 1) v'

/-- `x as u32` for `x : i32` (the cast at the head of `VarInt::pack_write`). -/
def u32ofInt (x : Int) : Nat := (x % (2 ^ 32 : Int)).toNat

/-- `x as u64` for `x : i64` (the cast at the head of `VarLong::pack_write`). -/
def u64ofInt (x : Int) : Nat := (x % (2 ^ 64 : Int)).toNat

/-- Reinterpret an unsigned `W`-bit pattern as a signed two's-complement
integer (the value of the `i32`/`i64` accumulator of the read loops). -/
def toSigned (W : Nat) (u : Nat) : Int :=
  if u < 2 ^ (W - 1) then (u : Int) else (u : Int) - 2 ^ W

namespace VarInt

/-- `VarInt::pack_write` (src/net_io.rs lines 85-105). -/
def pack_write (x : Int) : List Byte := varWriteLoop (u32ofInt x)

/-- `VarInt::pack_read` (src/net_io.rs lines 109-133).  Returns the decoded
value and the unread remainder of the stream (the cursor position). -/
def pack_read (s : List Byte) : Except NetErr (Int × List Byte) :=
  (varReadLoop 32 5 s 0 0).map fun p => (toSigned 32 p.1, p.2)

end VarInt

namespace VarLong

/-- `VarLong::pack_write` (src/net_io.rs lines 136-157). -/
def pack_write (x : Int) : List Byte := varWriteLoop (u64ofInt x)

/-- `VarLong::pack_read` (src/net_io.rs lines 160-184). -/
def pack_read (s : List Byte) : Except NetErr (Int × List Byte) :=
  (varReadLoop 64 10 s 0 0).map fun p => (toSigned 64 p.1, p.2)

end VarLong

namespace Int64

/-- `i64::pack_write` — `write_i64`, big-endian two's complement
(src/net_io.rs lines 47-52): byte `k` of the 64-bit pattern `p` is
`p / 2^(8*(7-k)) % 256`. -/
def pack_write (x : Int) : List Byte :=
  let p := u64ofInt x
  [p / 2 ^ 56 % 256, p / 2 ^ 48 % 256, p / 2 ^ 40 % 256, p / 2 ^ 32 % 256,
   p / 2 ^ 24 % 256, p / 2 ^ 16 % 256, p / 2 ^ 8 % 256, p % 256]

/-- `i64::pack_read` — `read_i64`, big-endian (src/net_io.rs lines 47-52);
fewer than 8 buffered bytes is an end-of-input error. -/
def pack_read : List Byte → Except NetErr (Int × List Byte)
  | b0 :: b1 :: b2 :: b3 :: b4 :: b5 :: b6 :: b7 :: rest =>
    .ok (toSigned 64
      (((((((b0 * 256 + b1) * 256 + b2) * 256 + b3) * 256 + b4) * 256 + b5) * 256
        + b6) * 256 + b7), rest)
  | _ => .error .eof

end Int64

deriving instance DecidableEq for Except

/-! ### Round-trip of the variable-length integer loops -/

/-- Recombining the low 7 bits and the rest: shifting the two parts of `u`
back together. -/
theorem land_shiftLeft_lor_recombine (u s : Nat) :
    (u &&& 127) <<< s ||| (u >>> 7) <<< (s + 7) = u <<< s := by
  apply Nat.eq_of_testBit_eq
  intro i
  have h127 : (127 : Nat) = 2 ^ 7 - 1 := by norm_num
  simp only [Nat.testBit_or, Nat.testBit_shiftLeft, Nat.testBit_and,
    Nat.testBit_shiftRight, h127, Nat.testBit_two_pow_sub_one]
  by_cases h1 : s ≤ i
  · by_cases h2 : s + 7 ≤ i
    · have : ¬ (i - s < 7) := by omega
      have he : 7 + (i - (s + 7)) = i - s := by omega
      simp [h1, h2, this, he]
    · have : i - s < 7 := by omega
      simp [h1, h2, this]
  · have : ¬ (s + 7 ≤ i) := by omega
    simp [h1, this]

/-- A byte with the continuation bit set keeps its low 7 bits under `& 0x7f`. -/
theorem cont_byte_land_127 (x : Nat) : (x &&& 127 ||| 128) &&& 127 = x &&& 127 := by
  apply Nat.eq_of_testBit_eq
  intro i
  have h127 : (127 : Nat) = 2 ^ 7 - 1 := by norm_num
  have h128 : (128 : Nat) = 2 ^ 7 := by norm_num
  simp only [Nat.testBit_and, Nat.testBit_or, h127, h128, Nat.testBit_two_pow_sub_one,
    Nat.testBit_two_pow]
  by_cases h : i < 7
  · have : ¬ (7 = i) := by omega
    simp [h, this]
  · simp [h]

/-- A byte with the continuation bit set is detected by `& 0x80`. -/
theorem cont_byte_land_128 (x : Nat) : (x &&& 127 ||| 128) &&& 128 = 128 := by
  apply Nat.eq_of_testBit_eq
  intro i
  have h127 : (127 : Nat) = 2 ^ 7 - 1 := by norm_num
  have h128 : (128 : Nat) = 2 ^ 7 := by norm_num
  simp only [Nat.testBit_and, Nat.testBit_or, h127, h128, Nat.testBit_two_pow_sub_one,
    Nat.testBit_two_pow]
  by_cases h : 7 = i
  · subst h; simp
  · simp [h]

/-- A final byte (below 0x80) has a clear continuation bit. -/
theorem final_byte_land_128 (x : Nat) (h : x < 128) : x &&& 128 = 0 := by
  apply Nat.eq_of_testBit_eq
  intro i
  have h128 : (128 : Nat) = 2 ^ 7 := by norm_num
  simp only [Nat.testBit_and, h128, Nat.testBit_two_pow, Nat.zero_testBit]
  by_cases hi : 7 = i
  · subst hi
    have : x < 2 ^ 7 := h
    simp [Nat.testBit_lt_two_pow this]
  · simp [hi]

/-- `overflowing_shl` and the `W`-bit truncation are both identities while the
shifted value fits the word. -/
theorem shl_mask_vanish {u s W : Nat} (h : u * 2 ^ s < 2 ^ W) :
    u <<< (s % W) % 2 ^ W = u <<< s := by
  rcases Nat.eq_zero_or_pos u with hu | hu
  · subst hu; simp [Nat.zero_shiftLeft]
  · have hsW : s < W := by
      have h1 : 2 ^ s ≤ u * 2 ^ s := Nat.le_mul_of_pos_left _ hu
      have h2 : 2 ^ s < 2 ^ W := lt_of_le_of_lt h1 h
      exact (Nat.pow_lt_pow_iff_right (by norm_num)).mp h2
    rw [Nat.mod_eq_of_lt hsW, Nat.shiftLeft_eq]
    exact Nat.mod_eq_of_lt h

/-- One unfolding of the write loop at positive fuel. -/
theorem varWriteGo_succ (fuel v : Nat) :
    varWriteGo (fuel + 1) v
      = if v >>> 7 = 0 then [v &&& 127]
        else (v &&& 127 ||| 128) :: varWriteGo fuel (v >>> 7) := rfl

/-- One unfolding of the read loop on a nonempty stream. -/
theorem varReadLoop_cons (W maxB : Nat) (r : Byte) (rest : List Byte) (size v : Nat) :
    varReadLoop W maxB (r :: rest) size v
      = if size + 1 > maxB then .error .tooLong
        else if r &&& 128 = 0 then .ok (v ||| (r &&& 127) <<< (7 * size % W) % 2 ^ W, rest)
        else varReadLoop W maxB rest (size + 1) (v ||| (r &&& 127) <<< (7 * size % W) % 2 ^ W) :=
  rfl

/-- The central round-trip lemma for the LEB128 loops: reading back what the
write loop emitted ORs the value into the accumulator at bit `7 * size`. -/
theorem varReadLoop_varWriteGo (W maxB : Nat) (hWB : W ≤ 7 * maxB) :
    ∀ fuel u rest size acc, u < 2 ^ (7 * fuel) →
      u * 2 ^ (7 * size) < 2 ^ W → size + 1 ≤ maxB →
      varReadLoop W maxB (varWriteGo (fuel + 1) u ++ rest) size acc
        = .ok (acc ||| u <<< (7 * size), rest) := by
  intro fuel
  induction fuel with
  | zero =>
    intro u rest size acc hu hshift hsize
    interval_cases u
    rw [varWriteGo_succ]
    simp only [Nat.zero_shiftRight, reduceIte, List.cons_append, List.nil_append]
    rw [varReadLoop_cons]
    have hno : ¬ (size + 1 > maxB) := by omega
    simp [hno, Nat.zero_shiftLeft]
  | succ fuel ih =>
    intro u rest size acc hu hshift hsize
    have hno : ¬ (size + 1 > maxB) := by omega
    by_cases hend : u >>> 7 = 0
    · -- final byte: u < 128
      have hu128 : u < 128 := by
        have := Nat.shiftRight_eq_div_pow u 7
        rw [hend] at this
        omega
      rw [varWriteGo_succ]
      simp only [hend, reduceIte, List.cons_append]
      rw [varReadLoop_cons]
      have hland : u &&& 127 = u := by
        have : (127 : Nat) = 2 ^ 7 - 1 := by norm_num
        rw [this, Nat.and_pow_two_sub_one_eq_mod, Nat.mod_eq_of_lt hu128]
      have hcont : u &&& 127 &&& 128 = 0 := by
        rw [hland]; exact final_byte_land_128 u hu128
      simp only [hno, reduceIte, hland, hcont]
      rw [shl_mask_vanish hshift]
      have hc : u &&& 128 = 0 := final_byte_land_128 u hu128
      simp [hc]
    · -- continuation byte: u ≥ 128, recurse
      have hu128 : 128 ≤ u := by
        have hd := Nat.shiftRight_eq_div_pow u 7
        rcases Nat.lt_or_ge u 128 with hlt | hge
        · exfalso; apply hend; rw [hd]; omega
        · exact hge
      rw [varWriteGo_succ]
      simp only [hend, reduceIte, List.cons_append]
      rw [varReadLoop_cons]
      have hval : (u &&& 127 ||| 128) &&& 127 = u &&& 127 := cont_byte_land_127 u
      have hcont : ¬ ((u &&& 127 ||| 128) &&& 128 = 0) := by
        rw [cont_byte_land_128]; omega
      simp only [hno, reduceIte, hval, hcont, if_false]
      have hules : u &&& 127 ≤ u := Nat.and_le_left
      have hmask : (u &&& 127) * 2 ^ (7 * size) < 2 ^ W :=
        lt_of_le_of_lt (Nat.mul_le_mul_right _ hules) hshift
      have hsize' : size + 1 + 1 ≤ maxB := by
        have h1 : 128 * 2 ^ (7 * size) ≤ u * 2 ^ (7 * size) :=
          Nat.mul_le_mul_right _ hu128
        have h2 : 2 ^ (7 * size + 7) < 2 ^ W := by
          calc 2 ^ (7 * size + 7) = 128 * 2 ^ (7 * size) := by ring
          _ ≤ u * 2 ^ (7 * size) := h1
          _ < 2 ^ W := hshift
        have := (Nat.pow_lt_pow_iff_right (by norm_num : 1 < 2)).mp h2
        omega
      have hu' : u >>> 7 < 2 ^ (7 * fuel) := by
        rw [Nat.shiftRight_eq_div_pow]
        have : u < 2 ^ (7 * fuel) * 2 ^ 7 := by
          have := hu
          rw [show 7 * (fuel + 1) = 7 * fuel + 7 by ring, pow_add] at this
          exact this
        omega
      have hshift' : (u >>> 7) * 2 ^ (7 * (size + 1)) < 2 ^ W := by
        rw [Nat.shiftRight_eq_div_pow]
        calc u / 2 ^ 7 * 2 ^ (7 * (size + 1))
            = u / 2 ^ 7 * 2 ^ 7 * 2 ^ (7 * size) := by ring_nf
          _ ≤ u * 2 ^ (7 * size) := Nat.mul_le_mul_right _ (Nat.div_mul_le_self u _)
          _ < 2 ^ W := hshift
      rw [shl_mask_vanish hmask, ih (u >>> 7) rest (size + 1) _ hu' hshift' hsize']
      rw [Nat.lor_assoc]
      rw [show 7 * (size + 1) = 7 * size + 7 by ring]
      rw [land_shiftLeft_lor_recombine]

/-- Fuel `v + 1` always suffices for the write loop. -/
theorem fuel_always_enough (u : Nat) : u < 2 ^ (7 * u) := by
  rcases Nat.eq_zero_or_pos u with h | h
  · subst h; norm_num
  · calc u < 2 ^ u := Nat.lt_two_pow u
      _ ≤ 2 ^ (7 * u) := Nat.pow_le_pow_right (by norm_num) (by omega)

/-- Reading back a written `W`-bit pattern, with anything appended. -/
theorem varReadLoop_varWriteLoop (W maxB : Nat) (hWB : W ≤ 7 * maxB) (hB : 1 ≤ maxB)
    (u : Nat) (rest : List Byte) (hu : u < 2 ^ W) :
    varReadLoop W maxB (varWriteLoop u ++ rest) 0 0 = .ok (u, rest) := by
  have h := varReadLoop_varWriteGo W maxB hWB u u rest 0 0 (fuel_always_enough u)
    (by simpa using hu) (by omega)
  rw [varWriteLoop, h]
  simp


/-- `u as u32` masks to 32 bits. -/
theorem u32ofInt_lt (x : Int) : u32ofInt x < 2 ^ 32 := by
  simp only [u32ofInt]
  omega

/-- `u as u64` masks to 64 bits. -/
theorem u64ofInt_lt (x : Int) : u64ofInt x < 2 ^ 64 := by
  simp only [u64ofInt]
  omega

/-- Unsigned-then-signed is the identity on the `i32` range. -/
theorem toSigned_u32ofInt (x : Int) (h1 : -2 ^ 31 ≤ x) (h2 : x < 2 ^ 31) :
    toSigned 32 (u32ofInt x) = x := by
  simp only [toSigned, u32ofInt]
  split <;> omega

/-- Unsigned-then-signed is the identity on the `i64` range. -/
theorem toSigned_u64ofInt (x : Int) (h1 : -2 ^ 63 ≤ x) (h2 : x < 2 ^ 63) :
    toSigned 64 (u64ofInt x) = x := by
  simp only [toSigned, u64ofInt]
  split <;> omega

/-- `VarInt` round-trip, with an arbitrary stream appended: `pack_read`
consumes exactly the bytes of `pack_write` and returns the written value. -/
theorem VarInt.read_write_i32 (x : Int) (h1 : -2 ^ 31 ≤ x) (h2 : x < 2 ^ 31)
    (rest : List Byte) :
    VarInt.pack_read (VarInt.pack_write x ++ rest) = .ok (x, rest) := by
  rw [VarInt.pack_read, VarInt.pack_write,
    varReadLoop_varWriteLoop 32 5 (by norm_num) (by norm_num) _ rest (u32ofInt_lt x)]
  simp [Except.map, toSigned_u32ofInt x h1 h2]

/-- `VarLong` round-trip, with an arbitrary stream appended. -/
theorem VarLong.read_write_i64 (x : Int) (h1 : -2 ^ 63 ≤ x) (h2 : x < 2 ^ 63)
    (rest : List Byte) :
    VarLong.pack_read (VarLong.pack_write x ++ rest) = .ok (x, rest) := by
  rw [VarLong.pack_read, VarLong.pack_write,
    varReadLoop_varWriteLoop 64 10 (by norm_num) (by norm_num) _ rest (u64ofInt_lt x)]
  simp [Except.map, toSigned_u64ofInt x h1 h2]

/-- `i64` round-trip, with an arbitrary stream appended. -/
theorem Int64.read_write_be (x : Int) (h1 : -2 ^ 63 ≤ x) (h2 : x < 2 ^ 63)
    (rest : List Byte) :
    Int64.pack_read (Int64.pack_write x ++ rest) = .ok (x, rest) := by
  simp only [Int64.pack_write, Int64.pack_read, List.cons_append, List.nil_append]
  have hp : u64ofInt x < 2 ^ 64 := u64ofInt_lt x
  have hrec :
      (((((((u64ofInt x / 2 ^ 56 % 256) * 256 + u64ofInt x / 2 ^ 48 % 256) * 256
        + u64ofInt x / 2 ^ 40 % 256) * 256 + u64ofInt x / 2 ^ 32 % 256) * 256
        + u64ofInt x / 2 ^ 24 % 256) * 256 + u64ofInt x / 2 ^ 16 % 256) * 256
        + u64ofInt x / 2 ^ 8 % 256) * 256 + u64ofInt x % 256 = u64ofInt x := by
    omega
  rw [hrec, toSigned_u64ofInt x h1 h2]

/-! ### The `InStatus` stage union and the framer -/

/-- The `InStatus` stage union (src/protocol/client/status.rs): the inbound
packets of the Status stage, `PacketStatusInRequest` (id 0x00, no fields) and
`PacketStatusInPing` (id 0x01, one `i64` field `payload`). -/
inductive InStatus
  | PacketStatusInRequest
  | PacketStatusInPing (payload : Int)
  deriving DecidableEq

namespace InStatus

/-- The payload of a `PacketStatusInPing` fits `i64` (true for any packet the
reader can produce; `PacketStatusInRequest` has no fields). -/
def wf : InStatus → Bool
  | .PacketStatusInRequest => true
  | .PacketStatusInPing payload => decide (-2 ^ 63 ≤ payload) && decide (payload < 2 ^ 63)

/-- The per-packet writer generated by `staged_packets!`
(src/net_io/packet.rs lines 287-296): the packet id VarInt, then the fields in
declaration order; the stage writer delegates to the variant
(lines 220-231). -/
def pack_write : InStatus → List Byte
  | .PacketStatusInRequest => VarInt.pack_write 0
  | .PacketStatusInPing payload => VarInt.pack_write 1 ++ Int64.pack_write payload

/-- The stage reader generated by `staged_packets!` (src/net_io/packet.rs
lines 203-217): read the leading id VarInt, dispatch on it to the variant
reader (which reads only the fields), unknown id is an error. -/
def pack_read (s : List Byte) : Except NetErr (InStatus × List Byte) :=
  match VarInt.pack_read s with
  | .error e => .error e
  | .ok (id, rest) =>
    if id = 0 then .ok (.PacketStatusInRequest, rest)
    else if id = 1 then
      match Int64.pack_read rest with
      | .error e => .error e
      | .ok (payload, rest₂) => .ok (.PacketStatusInPing payload, rest₂)
    else .error .unknownPacketId

end InStatus

/-- `PacketStatusInPing::pack_read`, the *bare* per-packet reader generated by
`staged_packets!` (src/net_io/packet.rs lines 272-284): it reads only the
declared fields — a single big-endian `i64` — and does **not** consume the
leading packet-id VarInt. -/
def PacketStatusInPing.pack_read (s : List Byte) : Except NetErr (Int × List Byte) :=
  Int64.pack_read s

/-- `PacketStatusOutPong::pack_write` (src/protocol/server/status.rs, id 0x01):
the id VarInt then the `payload` field. -/
def PacketStatusOutPong.pack_write (payload : Int) : List Byte :=
  VarInt.pack_write 1 ++ Int64.pack_write payload

/-- `size as usize` for `size : i32` on a 64-bit target: sign-extend then
reinterpret (src/network/encode.rs line 142). -/
def usizeOfI32 (x : Int) : Nat := (x % (2 ^ 64 : Int)).toNat

namespace PacketEncoder

/-- `PacketEncoder::write` (src/network/encode.rs lines 90-96): the
uncompressed envelope — a VarInt of the staging length (`as i32`), then the
staging bytes. -/
def write (staging : List Byte) : List Byte :=
  VarInt.pack_write (staging.length : Int) ++ staging

/-- `PacketEncoder::consume` with compression and encryption disabled
(src/network/encode.rs lines 43-63): serialize the packet into the (empty,
cleared-after-use) staging buffer, then append the uncompressed envelope to
the output buffer. -/
def consume (p : InStatus) : List Byte :=
  write (InStatus.pack_write p)

end PacketEncoder

/-- The wire stream of a packet sequence: the concatenation of the encoder
outputs (`OutgoingPacketChannel::send_packet` writes and clears the output
buffer after every `consume`). -/
def wire (ps : List InStatus) : List Byte :=
  (ps.map PacketEncoder.consume).flatten

namespace PacketDecoder

/-- `PacketDecoder::digest` with encryption disabled (src/network/encode.rs
lines 129-135): append the received bytes to the staging buffer. -/
def digest (staging bytes : List Byte) : List Byte :=
  staging ++ bytes

/-- `PacketDecoder::read` with compression disabled (src/network/encode.rs
lines 137-171), parametrized by the typed reader `readP` (the
`P::pack_read` instance):

* parse a leading VarInt `size` from the staging buffer; any failure of that
  parse yields `Ok(None)` with the staging buffer untouched;
* if fewer than `size` bytes follow the VarInt, yield `Ok(None)`;
* otherwise run `readP` on exactly the next `size` bytes (extra bytes of that
  frame beyond what `readP` consumes are discarded), propagate its error, and
  on success drop the consumed frame from the head of the staging buffer. -/
def read {α : Type} (readP : List Byte → Except NetErr (α × List Byte))
    (staging : List Byte) : Except NetErr (Option α × List Byte) :=
  match VarInt.pack_read staging with
  | .error _ => .ok (none, staging)
  | .ok (size, rest) =>
    let varint_len := staging.length - rest.length
    if staging.length - varint_len ≥ usizeOfI32 size then
      match readP (rest.take (usizeOfI32 size)) with
      | .error e => .error e
      | .ok (p, _) => .ok (some p, staging.drop (usizeOfI32 size + varint_len))
    else .ok (none, staging)

end PacketDecoder

/-- Repeated `PacketDecoder::read` calls on the `InStatus` stage until a call
returns `None`, collecting the decoded packets.  The fuel argument bounds the
number of calls; `runChunks` below supplies a bound that always suffices,
since every successful `read` consumes at least one staging byte. -/
def drainAll : Nat → List Byte → Except NetErr (List InStatus × List Byte)
  | 0, s => .ok ([], s)
  | fuel + 1, s =>
    match PacketDecoder.read InStatus.pack_read s with
    | .error e => .error e
    | .ok (none, s₂) => .ok ([], s₂)
    | .ok (some p, s₂) =>
      match drainAll fuel s₂ with
      | .error e => .error e
      | .ok (ps, s₃) => .ok (p :: ps, s₃)

/-- Feed each chunk to `digest` in turn, draining the decoder completely with
`read` calls after every chunk; return all decoded packets in order and the
final staging buffer. -/
def runChunks : List (List Byte) → List Byte → Except NetErr (List InStatus × List Byte)
  | [], s => .ok ([], s)
  | c :: cs, s =>
    let s₂ := PacketDecoder.digest s c
    match drainAll (s₂.length + 1) s₂ with
    | .error e => .error e
    | .ok (ps, s₃) =>
      match runChunks cs s₃ with
      | .error e => .error e
      | .ok (qs, s₄) => .ok (ps ++ qs, s₄)

/-! ### Framing lemmas -/

/-- Splitting an append equation at a point inside the left part. -/
theorem split_of_append_eq {α : Type} {s t a b : List α} (h : s ++ t = a ++ b)
    (hl : a.length ≤ s.length) : ∃ s₂, s = a ++ s₂ ∧ s₂ ++ t = b := by
  have hs : s.take a.length = a := by
    have h₂ := congrArg (List.take a.length) h
    rwa [List.take_append_of_le_length hl, List.take_left] at h₂
  have h₄ : s = a ++ s.drop a.length := by
    conv_lhs => rw [← List.take_append_drop a.length s]
    rw [hs]
  refine ⟨s.drop a.length, h₄, ?_⟩
  rw [h₄, List.append_assoc] at h
  exact List.append_cancel_left h


/-- The short side of an append equation extends to the long side. -/
theorem extend_of_append_eq {α : Type} {s t a b : List α} (h : s ++ t = a ++ b)
    (hl : s.length ≤ a.length) : ∃ u, s ++ u = a := by
  obtain ⟨a₂, ha, _⟩ := split_of_append_eq h.symm hl
  exact ⟨a₂, ha.symm⟩

theorem VarInt.pack_write_zero : VarInt.pack_write 0 = [0] := rfl

theorem VarInt.pack_write_one : VarInt.pack_write 1 = [1] := rfl

theorem Int64.pack_write_length (x : Int) : (Int64.pack_write x).length = 8 := by
  simp [Int64.pack_write]

/-- The encoded body of an `InStatus` packet is 1 or 9 bytes long. -/
theorem InStatus.pack_write_length_lt (p : InStatus) :
    (InStatus.pack_write p).length < 2 ^ 31 := by
  cases p with
  | PacketStatusInRequest =>
    rw [InStatus.pack_write, VarInt.pack_write_zero]
    norm_num
  | PacketStatusInPing payload =>
    rw [InStatus.pack_write, VarInt.pack_write_one]
    simp [Int64.pack_write_length]

/-- The stage-union round trip: the generated reader undoes the generated
writer, leaving appended bytes untouched. -/
theorem InStatus.read_write_stage (p : InStatus) (hp : p.wf = true) (extra : List Byte) :
    InStatus.pack_read (InStatus.pack_write p ++ extra) = .ok (p, extra) := by
  cases p with
  | PacketStatusInRequest =>
    rw [InStatus.pack_write, InStatus.pack_read,
      VarInt.read_write_i32 0 (by norm_num) (by norm_num) extra]
    simp
  | PacketStatusInPing payload =>
    simp only [InStatus.wf, Bool.and_eq_true, decide_eq_true_eq] at hp
    rw [InStatus.pack_write, InStatus.pack_read, List.append_assoc,
      VarInt.read_write_i32 1 (by norm_num) (by norm_num) _]
    simp [Int64.read_write_be payload hp.1 hp.2 extra]

/-- Casting a small length through `i32` and back through `usize`. -/
theorem usizeOfI32_ofNat (n : Nat) (h : n < 2 ^ 31) : usizeOfI32 (n : Int) = n := by
  simp only [usizeOfI32]
  omega

/-- `PacketDecoder::read` on a staging buffer that starts with a complete
frame: decodes the framed packet and drops exactly the frame. -/
theorem PacketDecoder.read_frame {α : Type}
    (readP : List Byte → Except NetErr (α × List Byte)) (body rest : List Byte)
    (hlen : body.length < 2 ^ 31) {p : α} {junk : List Byte}
    (hp : readP body = .ok (p, junk)) :
    PacketDecoder.read readP (PacketEncoder.write body ++ rest) = .ok (some p, rest) := by
  have hx1 : -2 ^ 31 ≤ (body.length : Int) := by
    have : (0 : Int) ≤ (body.length : Int) := Int.ofNat_nonneg _
    omega
  have hx2 : (body.length : Int) < 2 ^ 31 := by exact_mod_cast hlen
  rw [PacketDecoder.read, PacketEncoder.write, List.append_assoc,
    VarInt.read_write_i32 _ hx1 hx2 (body ++ rest)]
  simp only
  rw [usizeOfI32_ofNat _ hlen]
  have hvl : (VarInt.pack_write (body.length : Int) ++ (body ++ rest)).length
      - (body ++ rest).length = (VarInt.pack_write (body.length : Int)).length := by
    simp
  rw [hvl]
  have hge : (VarInt.pack_write (body.length : Int) ++ (body ++ rest)).length
      - (VarInt.pack_write (body.length : Int)).length ≥ body.length := by
    simp
  rw [if_pos hge]
  rw [List.take_left' rfl, hp]
  have hdrop : (VarInt.pack_write (body.length : Int) ++ (body ++ rest)).drop
      (body.length + (VarInt.pack_write (body.length : Int)).length) = rest := by
    rw [← List.append_assoc]
    apply List.drop_left'
    simp [Nat.add_comm]
  rw [hdrop]

/-- Reading a proper prefix of the write-loop output runs out of bytes: every
byte of such a prefix carries the continuation bit, so the loop keeps asking
for more. -/
theorem varReadLoop_proper_eof (W maxB : Nat) (hWB : W ≤ 7 * maxB) :
    ∀ fuel u size acc q, u < 2 ^ (7 * fuel) →
      u * 2 ^ (7 * size) < 2 ^ W → size + 1 ≤ maxB →
      (∃ t, q ++ t = varWriteGo (fuel + 1) u ∧ t ≠ []) →
      varReadLoop W maxB q size acc = .error .eof := by
  intro fuel
  induction fuel with
  | zero =>
    intro u size acc q hu hshift hsize ⟨t, ht, htne⟩
    interval_cases u
    rw [varWriteGo_succ] at ht
    simp only [Nat.zero_shiftRight, reduceIte] at ht
    -- q ++ t = [0 &&& 127] with t nonempty: q = []
    have : q = [] := by
      cases q with
      | nil => rfl
      | cons a q₂ =>
        exfalso
        simp only [List.cons_append, List.cons.injEq] at ht
        exact htne (List.append_eq_nil.mp ht.2).2
    subst this
    rfl
  | succ fuel ih =>
    intro u size acc q hu hshift hsize ⟨t, ht, htne⟩
    have hno : ¬ (size + 1 > maxB) := by omega
    by_cases hend : u >>> 7 = 0
    · rw [varWriteGo_succ] at ht
      simp only [hend, reduceIte] at ht
      have : q = [] := by
        cases q with
        | nil => rfl
        | cons a q₂ =>
          exfalso
          simp only [List.cons_append, List.cons.injEq] at ht
          exact htne (List.append_eq_nil.mp ht.2).2
      subst this
      rfl
    · have hu128 : 128 ≤ u := by
        have hd := Nat.shiftRight_eq_div_pow u 7
        rcases Nat.lt_or_ge u 128 with hlt | hge
        · exfalso; apply hend; rw [hd]; omega
        · exact hge
      rw [varWriteGo_succ] at ht
      simp only [hend, reduceIte] at ht
      cases q with
      | nil => rfl
      | cons a q₂ =>
        simp only [List.cons_append, List.cons.injEq] at ht
        obtain ⟨ha, ht₂⟩ := ht
        subst ha
        rw [varReadLoop_cons]
        have hcont : ¬ ((u &&& 127 ||| 128) &&& 128 = 0) := by
          rw [cont_byte_land_128]; omega
        simp only [hno, reduceIte, hcont, if_false]
        have hsize' : size + 1 + 1 ≤ maxB := by
          have h1 : 128 * 2 ^ (7 * size) ≤ u * 2 ^ (7 * size) :=
            Nat.mul_le_mul_right _ hu128
          have h2 : 2 ^ (7 * size + 7) < 2 ^ W := by
            calc 2 ^ (7 * size + 7) = 128 * 2 ^ (7 * size) := by ring
            _ ≤ u * 2 ^ (7 * size) := h1
            _ < 2 ^ W := hshift
          have := (Nat.pow_lt_pow_iff_right (by norm_num : 1 < 2)).mp h2
          omega
        have hu' : u >>> 7 < 2 ^ (7 * fuel) := by
          rw [Nat.shiftRight_eq_div_pow]
          have : u < 2 ^ (7 * fuel) * 2 ^ 7 := by
            have := hu
            rw [show 7 * (fuel + 1) = 7 * fuel + 7 by ring, pow_add] at this
            exact this
          omega
        have hshift' : (u >>> 7) * 2 ^ (7 * (size + 1)) < 2 ^ W := by
          rw [Nat.shiftRight_eq_div_pow]
          calc u / 2 ^ 7 * 2 ^ (7 * (size + 1))
              = u / 2 ^ 7 * 2 ^ 7 * 2 ^ (7 * size) := by ring_nf
            _ ≤ u * 2 ^ (7 * size) := Nat.mul_le_mul_right _ (Nat.div_mul_le_self u _)
            _ < 2 ^ W := hshift
        exact ih (u >>> 7) (size + 1) _ q₂ hu' hshift' hsize' ⟨t, ht₂, htne⟩

/-- A proper prefix of an encoded `VarInt` fails to parse (end of input). -/
theorem VarInt.read_proper_eof (x : Int) (q t : List Byte)
    (ht : q ++ t = VarInt.pack_write x) (htne : t ≠ []) :
    VarInt.pack_read q = .error .eof := by
  have h := varReadLoop_proper_eof 32 5 (by norm_num) (u32ofInt x) (u32ofInt x) 0 0 q
    (fuel_always_enough _) (by simpa using u32ofInt_lt x) (by norm_num)
    ⟨t, ht, htne⟩
  rw [VarInt.pack_read, h]
  rfl

/-- A staging buffer that cannot complete a frame: empty, or a proper prefix
of some frame of a sub-`i32`-sized body. -/
def Incomplete (q : List Byte) : Prop :=
  q = [] ∨ ∃ body : List Byte, body.length < 2 ^ 31 ∧
    (∃ t, q ++ t = PacketEncoder.write body ∧ t ≠ [])

/-- `PacketDecoder::read` on an incomplete staging buffer returns `None` and
leaves the staging buffer unchanged. -/
theorem PacketDecoder.read_none_of_incomplete {α : Type}
    (readP : List Byte → Except NetErr (α × List Byte)) (q : List Byte)
    (hq : Incomplete q) : PacketDecoder.read readP q = .ok (none, q) := by
  rcases hq with rfl | ⟨body, hlen, t, ht, htne⟩
  · rfl
  · have hx1 : -2 ^ 31 ≤ (body.length : Int) := by
      have : (0 : Int) ≤ (body.length : Int) := Int.ofNat_nonneg _
      omega
    have hx2 : (body.length : Int) < 2 ^ 31 := by exact_mod_cast hlen
    rw [PacketEncoder.write] at ht
    have hw : 1 ≤ (VarInt.pack_write (body.length : Int)).length := by
      rw [VarInt.pack_write, varWriteLoop, varWriteGo_succ]
      split <;> simp
    rcases Nat.lt_or_ge q.length (VarInt.pack_write (body.length : Int)).length
      with hlt | hge
    · -- q is a proper prefix of the length VarInt itself
      obtain ⟨u, hu⟩ := extend_of_append_eq ht (by omega)
      have hune : u ≠ [] := by
        intro he
        subst he
        have := congrArg List.length hu
        simp at this
        omega
      rw [PacketDecoder.read, VarInt.read_proper_eof (body.length : Int) q u hu hune]
    · -- q contains the whole length VarInt and a proper prefix of the body
      obtain ⟨q₂, hq₂, hq₂t⟩ := split_of_append_eq ht hge
      have hq₂lt : q₂.length < body.length := by
        have := congrArg List.length hq₂t
        simp at this
        have htpos : 0 < t.length := List.length_pos.mpr htne
        omega
      rw [PacketDecoder.read, hq₂, VarInt.read_write_i32 _ hx1 hx2 q₂]
      simp only
      rw [usizeOfI32_ofNat _ hlen]
      have hvl : (VarInt.pack_write (body.length : Int) ++ q₂).length - q₂.length
          = (VarInt.pack_write (body.length : Int)).length := by
        simp
      rw [hvl]
      have hnge : ¬ ((VarInt.pack_write (body.length : Int) ++ q₂).length
          - (VarInt.pack_write (body.length : Int)).length ≥ body.length) := by
        simp
        omega
      rw [if_neg hnge]

theorem wire_nil : wire [] = [] := rfl

theorem wire_cons (p : InStatus) (tl : List InStatus) :
    wire (p :: tl) = PacketEncoder.consume p ++ wire tl := by
  simp [wire]

/-- Each frame takes at least one wire byte, so a packet sequence never has
more packets than its wire stream has bytes. -/
theorem length_le_wire_length (ps : List InStatus) : ps.length ≤ (wire ps).length := by
  induction ps with
  | nil => simp [wire_nil]
  | cons p tl ih =>
    rw [wire_cons]
    have h1 : 1 ≤ (PacketEncoder.consume p).length := by
      rw [PacketEncoder.consume, PacketEncoder.write, VarInt.pack_write, varWriteLoop,
        varWriteGo_succ]
      split <;> simp
    simp only [List.length_cons, List.length_append]
    omega

/-- Draining a staging buffer made of whole frames followed by an incomplete
tail returns exactly the framed packets and keeps the tail. -/
theorem drainAll_spec (ps : List InStatus) (hwf : ∀ p ∈ ps, p.wf = true)
    (q : List Byte) (hq : Incomplete q) :
    ∀ fuel, ps.length < fuel → drainAll fuel (wire ps ++ q) = .ok (ps, q) := by
  induction ps with
  | nil =>
    intro fuel hfuel
    cases fuel with
    | zero => omega
    | succ f =>
      rw [wire_nil, List.nil_append, drainAll,
        PacketDecoder.read_none_of_incomplete InStatus.pack_read q hq]
  | cons p tl ih =>
    intro fuel hfuel
    cases fuel with
    | zero => omega
    | succ f =>
      have hwp : p.wf = true := hwf p (by simp)
      have hread : PacketDecoder.read InStatus.pack_read (wire (p :: tl) ++ q)
          = .ok (some p, wire tl ++ q) := by
        rw [wire_cons, List.append_assoc, PacketEncoder.consume]
        exact PacketDecoder.read_frame InStatus.pack_read (InStatus.pack_write p)
          (wire tl ++ q) (InStatus.pack_write_length_lt p)
          (by rw [← List.append_nil (InStatus.pack_write p)]
              exact InStatus.read_write_stage p hwp [])
      have hih := ih (fun x hx => hwf x (by simp [hx])) f
        (by simp only [List.length_cons] at hfuel; omega)
      rw [drainAll, hread]
      simp [hih]

/-- Any way of cutting a wire stream splits the packet sequence into the
fully-delivered head and a pending tail whose first frame is incomplete. -/
theorem wire_split (ps : List InStatus) (hwf : ∀ p ∈ ps, p.wf = true) :
    ∀ s t, s ++ t = wire ps →
      ∃ psA psB r, ps = psA ++ psB ∧ s = wire psA ++ r ∧ Incomplete r ∧
        r ++ t = wire psB := by
  induction ps with
  | nil =>
    intro s t h
    rw [wire_nil] at h
    have hs : s = [] := (List.append_eq_nil.mp h).1
    have ht : t = [] := (List.append_eq_nil.mp h).2
    exact ⟨[], [], [], rfl, by simp [wire_nil, hs], Or.inl rfl, by simp [wire_nil, ht]⟩
  | cons p tl ih =>
    intro s t h
    rw [wire_cons] at h
    rcases le_or_lt (PacketEncoder.consume p).length s.length with hle | hlt
    · obtain ⟨s₂, hs, hrest⟩ := split_of_append_eq h hle
      obtain ⟨psA, psB, r, he, hs₂, hinc, hwt⟩ :=
        ih (fun x hx => hwf x (by simp [hx])) s₂ t hrest
      refine ⟨p :: psA, psB, r, by rw [he, List.cons_append], ?_, hinc, hwt⟩
      rw [hs, hs₂, wire_cons, List.append_assoc]
    · refine ⟨[], p :: tl, s, rfl, by simp [wire_nil], ?_, by rw [wire_cons]; exact h⟩
      by_cases hse : s = []
      · exact Or.inl hse
      · right
        obtain ⟨u, hu⟩ := extend_of_append_eq h (by omega)
        refine ⟨InStatus.pack_write p, InStatus.pack_write_length_lt p, u, hu, ?_⟩
        intro hune
        subst hune
        have := congrArg List.length hu
        simp only [List.append_nil] at this
        rw [this] at hlt
        simp [PacketEncoder.consume] at hlt

/-- Feeding any chunking of a wire stream through `digest` and draining after
every chunk recovers exactly the framed packets, in order, with nothing left
in the staging buffer. -/
theorem runChunks_spec :
    ∀ (cs : List (List Byte)) (q : List Byte) (ps : List InStatus),
      (∀ p ∈ ps, p.wf = true) → Incomplete q → q ++ cs.flatten = wire ps →
      runChunks cs q = .ok (ps, []) := by
  intro cs
  induction cs with
  | nil =>
    intro q ps hwf hinc h
    simp only [List.flatten_nil, List.append_nil] at h
    cases ps with
    | nil =>
      rw [wire_nil] at h
      rw [runChunks, h]
    | cons p tl =>
      exfalso
      have h1 := PacketDecoder.read_none_of_incomplete InStatus.pack_read q hinc
      have h2 : PacketDecoder.read InStatus.pack_read q = .ok (some p, wire tl) := by
        rw [h, wire_cons, PacketEncoder.consume]
        exact PacketDecoder.read_frame InStatus.pack_read (InStatus.pack_write p)
          (wire tl) (InStatus.pack_write_length_lt p)
          (by rw [← List.append_nil (InStatus.pack_write p)]
              exact InStatus.read_write_stage p (hwf p (by simp)) [])
      rw [h1] at h2
      simp at h2
  | cons c cs ih =>
    intro q ps hwf hinc h
    have hh : (q ++ c) ++ cs.flatten = wire ps := by
      rw [List.append_assoc, ← List.flatten_cons]
      exact h
    obtain ⟨psA, psB, r, hps, hs, hinc₂, hrt⟩ := wire_split ps hwf (q ++ c) cs.flatten hh
    have hwfA : ∀ p ∈ psA, p.wf = true := fun x hx => hwf x (by rw [hps]; simp [hx])
    have hwfB : ∀ p ∈ psB, p.wf = true := fun x hx => hwf x (by rw [hps]; simp [hx])
    have hdrain : drainAll ((PacketDecoder.digest q c).length + 1)
        (PacketDecoder.digest q c) = .ok (psA, r) := by
      rw [PacketDecoder.digest, hs]
      exact drainAll_spec psA hwfA r hinc₂ _ (by
        have h1 := length_le_wire_length psA
        simp only [List.length_append]
        omega)
    have hih := ih r psB hwfB hinc₂ hrt
    rw [runChunks, hdrain]
    simp [hih, hps]

/-! ### Claim C1 -/

/-- C1: with compression and encryption disabled, for every finite sequence of
`InStatus` stage-union packets and every split of the concatenated
`PacketEncoder::consume` outputs into chunks fed to `PacketDecoder::digest`,
draining with `PacketDecoder::read` after each chunk returns exactly the
original packets in order, with nothing left over (and `read` on the emptied
buffer returns `None`); moreover a buffered partial frame makes `read` return
`None` without modifying the staging buffer. -/
theorem c1_framer_streaming :
    (∀ (ps : List InStatus) (chunks : List (List Byte)),
        (∀ p ∈ ps, p.wf = true) → chunks.flatten = wire ps →
        runChunks chunks [] = .ok (ps, [])) ∧
    PacketDecoder.read InStatus.pack_read [] = .ok (none, []) ∧
    (∀ (p : InStatus) (q t : List Byte), t ≠ [] →
        q ++ t = PacketEncoder.consume p →
        PacketDecoder.read InStatus.pack_read q = .ok (none, q)) := by
  refine ⟨?_, rfl, ?_⟩
  · intro ps chunks hwf h
    exact runChunks_spec chunks [] ps hwf (Or.inl rfl) (by simpa using h)
  · intro p q t htne hq
    exact PacketDecoder.read_none_of_incomplete _ q
      (Or.inr ⟨InStatus.pack_write p, InStatus.pack_write_length_lt p, t, hq, htne⟩)

/-- C1, instantiated: the two status packets, their wire stream chopped into
four uneven chunks, recovered whole. -/
theorem c1_framer_streaming_witness :
    ([[1], [0, 9, 1], [1, 2, 3, 4, 5], [6, 7, 8]] : List (List Byte)).flatten
      = wire [.PacketStatusInRequest, .PacketStatusInPing 72623859790382856] ∧
    runChunks [[1], [0, 9, 1], [1, 2, 3, 4, 5], [6, 7, 8]] []
      = .ok ([.PacketStatusInRequest, .PacketStatusInPing 72623859790382856], []) :=
  ⟨by decide,
   c1_framer_streaming.1 [.PacketStatusInRequest, .PacketStatusInPing 72623859790382856]
     [[1], [0, 9, 1], [1, 2, 3, 4, 5], [6, 7, 8]] (by decide) (by decide)⟩

/-! ### Claim C4 -/

/-- C4: `VarInt::pack_read` undoes `VarInt::pack_write` on the whole `i32`
range (the read loop masking shifts exactly as `overflowing_shl` does), and
`VarLong` round-trips the whole `i64` range likewise. -/
theorem c4_var_roundtrip (x y : Int)
    (hx1 : -2 ^ 31 ≤ x) (hx2 : x < 2 ^ 31)
    (hy1 : -2 ^ 63 ≤ y) (hy2 : y < 2 ^ 63) :
    VarInt.pack_read (VarInt.pack_write x) = .ok (x, []) ∧
    VarLong.pack_read (VarLong.pack_write y) = .ok (y, []) := by
  constructor
  · have h := VarInt.read_write_i32 x hx1 hx2 []
    simpa using h
  · have h := VarLong.read_write_i64 y hy1 hy2 []
    simpa using h

/-- C4 at the signed edges: `i32::MIN` and `i64::MAX`. -/
theorem c4_var_roundtrip_witness :
    VarInt.pack_read (VarInt.pack_write (-2147483648)) = .ok (-2147483648, []) ∧
    VarLong.pack_read (VarLong.pack_write 9223372036854775807)
      = .ok (9223372036854775807, []) :=
  c4_var_roundtrip (-2147483648) 9223372036854775807
    (by norm_num) (by norm_num) (by norm_num) (by norm_num)

/-! ### Claim C5 -/

/-- C5 counterexample: on the stream of six 0x80 bytes then 0x00 the claim
says `PacketDecoder::read` fails with a VarInt-too-long framing error; the
code instead swallows the error of the leading VarInt parse
(`if let Ok(..) .. else None`, src/network/encode.rs line 139) and returns
`Ok(None)` with the staging buffer unchanged. -/
theorem c5_decoder_swallows_too_long :
    PacketDecoder.read InStatus.pack_read [128, 128, 128, 128, 128, 128, 0]
      = .ok (none, [128, 128, 128, 128, 128, 128, 0]) := by decide

/-- C5 as amended: at the primitive level `VarInt::pack_read` does fail with
the too-long error on any stream whose first five bytes all carry the
continuation bit (any encoding longer than 5 bytes), while
`PacketDecoder::read` maps that failure to `Ok(None)`, leaving the staging
buffer unchanged. -/
theorem c5_varint_too_long (b0 b1 b2 b3 b4 b5 : Byte) (rest : List Byte)
    (hc0 : b0 &&& 128 ≠ 0) (hc1 : b1 &&& 128 ≠ 0) (hc2 : b2 &&& 128 ≠ 0)
    (hc3 : b3 &&& 128 ≠ 0) (hc4 : b4 &&& 128 ≠ 0) :
    VarInt.pack_read (b0 :: b1 :: b2 :: b3 :: b4 :: b5 :: rest) = .error .tooLong ∧
    PacketDecoder.read InStatus.pack_read (b0 :: b1 :: b2 :: b3 :: b4 :: b5 :: rest)
      = .ok (none, b0 :: b1 :: b2 :: b3 :: b4 :: b5 :: rest) := by
  have hv : VarInt.pack_read (b0 :: b1 :: b2 :: b3 :: b4 :: b5 :: rest)
      = .error .tooLong := by
    rw [VarInt.pack_read]
    rw [varReadLoop_cons, if_neg (by norm_num), if_neg hc0]
    rw [varReadLoop_cons, if_neg (by norm_num), if_neg hc1]
    rw [varReadLoop_cons, if_neg (by norm_num), if_neg hc2]
    rw [varReadLoop_cons, if_neg (by norm_num), if_neg hc3]
    rw [varReadLoop_cons, if_neg (by norm_num), if_neg hc4]
    rw [varReadLoop_cons, if_pos (by norm_num)]
    rfl
  refine ⟨hv, ?_⟩
  rw [PacketDecoder.read, hv]

/-- C5 as amended, at the claimed stream (six 0x80 then 0x00). -/
theorem c5_varint_too_long_witness :
    VarInt.pack_read [128, 128, 128, 128, 128, 128, 0] = .error .tooLong ∧
    PacketDecoder.read InStatus.pack_read [128, 128, 128, 128, 128, 128, 0]
      = .ok (none, [128, 128, 128, 128, 128, 128, 0]) :=
  c5_varint_too_long 128 128 128 128 128 128 [0]
    (by decide) (by decide) (by decide) (by decide) (by decide)

/-! ### Claim C2 — the compressed envelope -/

/-- `PacketEncoder::write_compressed` (src/network/encode.rs lines 65-88),
parametrized by the zlib deflate function `zlib` (an external library call,
only invoked at or above the threshold).  Following the source line by line:
`data_len` starts at 0 and `slice` at the staging buffer; at or above the
threshold `slice` becomes the deflated bytes and `data_len` the staging
length; then the local `buf` receives `VarInt(data_len)`, `packet_size` is
computed as `buf.len() + slice.len()`, and `buf` receives
`VarInt(packet_size)` and `VarInt(data_len)` again; `buf` — and only `buf` —
is appended to the output buffer.  The returned list is what the call appends
to the output buffer. -/
def PacketEncoder.write_compressed (zlib : List Byte → List Byte) (threshold : Nat)
    (staging : List Byte) : List Byte :=
  let slice := if staging.length ≥ threshold then zlib staging else staging
  let data_len := if staging.length ≥ threshold then staging.length else 0
  let buf₁ := VarInt.pack_write (data_len : Int)
  let packet_size := buf₁.length + slice.length
  buf₁ ++ VarInt.pack_write (packet_size : Int) ++ VarInt.pack_write (data_len : Int)

/-- Modelled from the spec: the canonical compressed envelope
(spec.md §4.C step 2 and §6) — outer VarInt equal to the length of the inner
VarInt plus the body, then `data_len` written exactly once (0 below the
threshold with the raw body, else the uncompressed length with the deflated
body), then the body bytes.  Stated from the spec words for comparison with
`PacketEncoder.write_compressed` above. -/
def canonicalCompressedEnvelope (zlib : List Byte → List Byte) (threshold : Nat)
    (staging : List Byte) : List Byte :=
  let body := if staging.length < threshold then staging else zlib staging
  let data_len := if staging.length < threshold then 0 else staging.length
  let inner := VarInt.pack_write (data_len : Int)
  VarInt.pack_write ((inner.length + body.length : Nat) : Int) ++ inner ++ body

/-- C2: the code and the canonical envelope disagree.  Below the threshold the
code emits `VarInt(0) ++ VarInt(1 + staging.len()) ++ VarInt(0)` — the inner
`data_len` first, the outer length second, `data_len` a second time, and no
body bytes at all — where the claim requires
`VarInt(1 + staging.len()) ++ VarInt(0) ++ staging`.  Instantiated at
threshold 256 and the one-byte body `[0x00]`. -/
theorem c2_compressed_envelope_bug :
    (∀ (zlib : List Byte → List Byte) (threshold : Nat) (staging : List Byte),
      staging.length < threshold →
      PacketEncoder.write_compressed zlib threshold staging
        = VarInt.pack_write 0 ++ VarInt.pack_write ((1 + staging.length : Nat) : Int)
          ++ VarInt.pack_write 0) ∧
    PacketEncoder.write_compressed id 256 [0] = [0, 2, 0] ∧
    canonicalCompressedEnvelope id 256 [0] = [2, 0, 0] ∧
    PacketEncoder.write_compressed id 256 [0] ≠ canonicalCompressedEnvelope id 256 [0] := by
  refine ⟨?_, by decide, by decide, by decide⟩
  intro zlib threshold staging hlt
  have hnge : ¬ (staging.length ≥ threshold) := by omega
  simp only [PacketEncoder.write_compressed, hnge, if_false, reduceIte,
    Nat.cast_zero, Nat.cast_add, Nat.cast_one]
  have h0 : (VarInt.pack_write 0).length = 1 := by decide
  rw [h0]
  norm_num

/-- C2 at a concrete below-threshold packet. -/
theorem c2_compressed_envelope_bug_witness :
    PacketEncoder.write_compressed id 256 [0]
      = VarInt.pack_write 0 ++ VarInt.pack_write ((1 + 1 : Nat) : Int)
        ++ VarInt.pack_write 0 :=
  c2_compressed_envelope_bug.1 id 256 [0] (by norm_num)

/-! ### Claim C3 — cipher state across packets -/

/-- One direction of AES-128-CFB8 as used by the `cfb8` crate: the keystream
byte is the first byte of the block function applied to the 16-byte shift
register (initially the IV), the ciphertext byte is fed back into the
register.  The block function `F` (AES-128 under the negotiated key) is
abstract: the state handling at issue is independent of it.  Returns the
ciphertext and the final register. -/
def cfb8Encrypt (F : List Byte → List Byte) : List Byte → List Byte → List Byte × List Byte
  | reg, [] => ([], reg)
  | reg, p :: ps =>
    let c := p ^^^ (F reg).headD 0
    let out := cfb8Encrypt F (reg.drop 1 ++ [c]) ps
    (c :: out.1, out.2)

/-- CFB8 decryption: same keystream, ciphertext fed back. -/
def cfb8Decrypt (F : List Byte → List Byte) : List Byte → List Byte → List Byte × List Byte
  | reg, [] => ([], reg)
  | reg, c :: cs =>
    let p := c ^^^ (F reg).headD 0
    let out := cfb8Decrypt F (reg.drop 1 ++ [c]) cs
    (p :: out.1, out.2)

/-- The mutable state of `PacketEncoder` relevant to encryption: the CFB8
shift register of the owned encryptor (`None` before `set_encryption`;
`set_encryption(key)` stores the register initialized to the IV = key). -/
structure PacketEncoderState where
  encryptor : Option (List Byte)
  deriving DecidableEq

/-- `PacketEncoder::consume` with encryption configured (src/network/encode.rs
lines 43-63, compression disabled): frame the packet, then — when a cipher is
present — encrypt the output with `enc.clone()` (line 57).  The clone is
advanced and dropped; the stored cipher state is **not** advanced, so the
state returned for the next packet is the input state. -/
def PacketEncoderState.consume (F : List Byte → List Byte) (st : PacketEncoderState)
    (p : InStatus) : List Byte × PacketEncoderState :=
  let plain := PacketEncoder.write (InStatus.pack_write p)
  match st.encryptor with
  | none => (plain, st)
  | some reg => ((cfb8Encrypt F reg plain).1, st)

/-- The mutable state of `PacketDecoder` relevant to encryption. -/
structure PacketDecoderState where
  decryptor : Option (List Byte)
  staging : List Byte
  deriving DecidableEq

/-- `PacketDecoder::digest` with encryption configured (src/network/encode.rs
lines 129-135): append the received bytes to the staging buffer, then — when a
cipher is present — decrypt the **whole** staging buffer in place with
`dec.clone()`, re-applying the keystream to bytes decrypted by earlier
`digest` calls and never advancing the stored state. -/
def PacketDecoderState.digest (F : List Byte → List Byte) (st : PacketDecoderState)
    (bytes : List Byte) : PacketDecoderState :=
  let s := st.staging ++ bytes
  match st.decryptor with
  | none => { st with staging := s }
  | some reg => { st with staging := (cfb8Decrypt F reg s).1 }

/-- C3: the cipher state is **not** continuous across packets.  `consume`
returns its input state unchanged for every packet (the clone is discarded),
so the state used for packet `n + 1` is always the initial IV state; yet
actually encrypting a packet advances the CFB8 register (concretely: the
identity block function, the all-zero register, and the framed
`PacketStatusInRequest`).  Dually, a second `digest` call re-applies the
keystream to bytes already decrypted by the first (concretely: a constant
block function and an empty second chunk change the staging buffer). -/
theorem c3_cipher_state_not_continuous :
    (∀ (F : List Byte → List Byte) (st : PacketEncoderState) (p : InStatus),
        (PacketEncoderState.consume F st p).2 = st) ∧
    (PacketEncoderState.consume id ⟨some (List.replicate 16 0)⟩
        InStatus.PacketStatusInRequest).2.encryptor = some (List.replicate 16 0) ∧
    (cfb8Encrypt id (List.replicate 16 0)
        (PacketEncoder.write (InStatus.pack_write InStatus.PacketStatusInRequest))).2
      ≠ List.replicate 16 0 ∧
    (PacketDecoderState.digest (fun _ => List.replicate 16 1)
        (PacketDecoderState.digest (fun _ => List.replicate 16 1)
          ⟨some (List.replicate 16 0), []⟩ [1]) []).staging
      ≠ (PacketDecoderState.digest (fun _ => List.replicate 16 1)
          ⟨some (List.replicate 16 0), []⟩ [1]).staging := by
  refine ⟨?_, by decide, by decide, by decide⟩
  intro F st p
  rcases st with ⟨_ | reg⟩ <;> rfl

/-! ### Claim C6 — the status ping echo -/

/-- The ping leg of `ClientConnection::do_initial_handle`
(src/network/client.rs lines 112-120): after the status response is sent, the
connection reads a **bare** `PacketStatusInPing` — via the per-packet reader,
which reads only the `payload` field and never consumes the packet-id
VarInt — and replies with a `PacketStatusOutPong` carrying that payload.
Result: the pong bytes produced for the given staging buffer (`none` if no
complete frame is buffered). -/
def do_initial_handle_ping (staging : List Byte) :
    Except NetErr (Option (List Byte) × List Byte) :=
  match PacketDecoder.read PacketStatusInPing.pack_read staging with
  | .error e => .error e
  | .ok (none, s) => .ok (none, s)
  | .ok (some payload, s) => .ok (some (PacketStatusOutPong.pack_write payload), s)

/-- C6: on the framed ping `VarInt(9) ∥ VarInt(0x01) ∥ i64(0x0102030405060708)`
the bare reader misparses the payload as `0x0101020304050607` (the id byte is
consumed as the first payload byte), and the server echoes that wrong value:
the pong carries `0x0101020304050607 ≠ 0x0102030405060708`. -/
theorem c6_status_ping_echo_bug :
    PacketDecoder.read PacketStatusInPing.pack_read [9, 1, 1, 2, 3, 4, 5, 6, 7, 8]
      = .ok (some 72341280990234119, []) ∧
    do_initial_handle_ping [9, 1, 1, 2, 3, 4, 5, 6, 7, 8]
      = .ok (some (PacketStatusOutPong.pack_write 72341280990234119), []) ∧
    (72341280990234119 : Int) ≠ 72623859790382856 ∧
    PacketStatusOutPong.pack_write 72341280990234119
      ≠ PacketStatusOutPong.pack_write 72623859790382856 := by
  refine ⟨by decide, by decide, by decide, by decide⟩

/-! ### Claim C7 — identifier parsing -/

/-- The character class of `[a-z\d.-_]` as the `regex` crate reads it:
lowercase letters, digits, and the **range** `'.'-'_'` (0x2E–0x5F) — the
unescaped hyphen between `.` and `_` makes a range that also contains the
uppercase letters, `:`, `/` and more (src/util.rs lines 17-19). -/
def inNsClass (c : Char) : Bool :=
  ('a' ≤ c && c ≤ 'z') || ('0' ≤ c && c ≤ '9') || ('.' ≤ c && c ≤ '_')

/-- The class of `[a-z\d.-_/]`: the same plus a literal `/` (already inside
the range, so the two classes coincide). -/
def inPathClass (c : Char) : Bool :=
  inNsClass c || c = '/'

/-- Longest prefix of consecutive class characters, and the remainder. -/
def takeRun (cls : Char → Bool) : List Char → List Char × List Char
  | [] => ([], [])
  | c :: cs =>
    if cls c then
      let out := takeRun cls cs
      (c :: out.1, out.2)
    else ([], c :: cs)

/-- Greedy backtracking for the pattern `(C₁+):(C₂+)` at a fixed start: the
first argument is the (reversed) group-1 candidate, initially the maximal
`C₁` run; try the split at its end — the next character must be `:` followed
by a nonempty greedy `C₂` run — and on failure give the last candidate
character back to the stream.  This is the preference order of the `regex`
crate for a greedy `+`. -/
def backtrack (cls₂ : Char → Bool) : List Char → List Char → Option (List Char × List Char)
  | [], _ => none
  | a :: g1rev, t =>
    match t with
    | ':' :: u =>
      let g2 := (takeRun cls₂ u).1
      if g2 = [] then backtrack cls₂ g1rev (a :: t)
      else some ((a :: g1rev).reverse, g2)
    | _ => backtrack cls₂ g1rev (a :: t)

/-- Match `(C₁+):(C₂+)` anchored at the head of `s`. -/
def matchAt (cls₁ cls₂ : Char → Bool) (s : List Char) : Option (List Char × List Char) :=
  let out := takeRun cls₁ s
  backtrack cls₂ out.1.reverse out.2

/-- `FULL_RE.captures` (src/util.rs line 19): the leftmost match of
`([a-z\d.-_]+):([a-z\d.-_/]+)` in the text, as the pair
(group 1, group 2). -/
def capturesAux (cls₁ cls₂ : Char → Bool) : List Char → Option (List Char × List Char)
  | [] => none
  | c :: cs =>
    match matchAt cls₁ cls₂ (c :: cs) with
    | some g => some g
    | none => capturesAux cls₁ cls₂ cs

/-- `Identifier` (src/util.rs lines 4-8); the source field names are
`namespace` and `path` (`namespace` is reserved here, hence `ns`). -/
structure Identifier where
  ns : List Char
  path : List Char
  deriving DecidableEq

/-- `NAMESPACE_RE.is_match` — unanchored, so it holds as soon as any character
of the text is in the class. -/
def NAMESPACE_RE_is_match (s : List Char) : Bool := s.any inNsClass

/-- `PATH_RE.is_match` — unanchored likewise. -/
def PATH_RE_is_match (s : List Char) : Bool := s.any inPathClass

/-- `Identifier::new` (src/util.rs lines 23-44). -/
def Identifier.new (ns p : List Char) : Option Identifier :=
  if NAMESPACE_RE_is_match ns then
    if PATH_RE_is_match p then some ⟨ns, p⟩ else none
  else none

/-- `Identifier::parse` (src/util.rs lines 84-98): run `FULL_RE.captures`;
on a match take capture **group 0** — the full match — as the namespace and
capture **group 1** — the first group — as the path, and feed them to
`Identifier::new`; no match is an error (`none`). -/
def Identifier.parse (s : List Char) : Option Identifier :=
  match capturesAux inNsClass inPathClass s with
  | none => none
  | some (g1, g2) => Identifier.new (g1 ++ ':' :: g2) g1

/-- C7: the claim says `parse` splits on the first `:` and validates the two
halves, so that `parse "minecraft:stone"` yields namespace `"minecraft"` and
path `"stone"` while `parse "Minecraft:Stone"` fails.  The code instead
returns the **whole match** as the namespace and the **first half** as the
path (capture groups 0 and 1 instead of 1 and 2), and the unescaped hyphen
ranges make the classes accept uppercase and `:`, so `"Minecraft:Stone"`
parses successfully. -/
theorem c7_identifier_parse_bug :
    Identifier.parse "minecraft:stone".toList
      = some ⟨"minecraft:stone".toList, "minecraft".toList⟩ ∧
    Identifier.parse "Minecraft:Stone".toList
      = some ⟨"Minecraft:Stone".toList, "Minecraft".toList⟩ ∧
    (some (⟨"minecraft:stone".toList, "minecraft".toList⟩ : Identifier)
      ≠ some (⟨"minecraft".toList, "stone".toList⟩ : Identifier)) ∧
    Identifier.parse "Minecraft:Stone".toList ≠ none := by
  refine ⟨by decide, by decide, by decide, by decide⟩

/-! ### Claim C8 — the chat component cap -/

/-- `MAX_COMPONENT_JSON_SIZE` (src/chat.rs line 306). -/
def MAX_COMPONENT_JSON_SIZE : Nat := 262144

/-- `Component::pack_write` (src/chat.rs lines 308-337), parametrized by the
serde_json encoding of the component — the chat JSON schema is an external
collaborator, the codec sees only its UTF-8 bytes `json`: fail with the
over-limit error when the encoding exceeds `MAX_COMPONENT_JSON_SIZE`, else
append a VarInt length prefix and the bytes to the buffer. -/
def Component.pack_write (json buffer : List Byte) : Except NetErr (List Byte) :=
  if json.length > MAX_COMPONENT_JSON_SIZE then .error .overLimit
  else .ok (buffer ++ VarInt.pack_write (json.length : Int) ++ json)

/-- C8: writing a component succeeds for every JSON encoding of at most
262,144 bytes and fails with the over-limit error exactly when the encoding
exceeds that cap. -/
theorem c8_component_cap (json buffer : List Byte) :
    (Component.pack_write json buffer = .error .overLimit ↔
      json.length > MAX_COMPONENT_JSON_SIZE) ∧
    (json.length ≤ MAX_COMPONENT_JSON_SIZE →
      Component.pack_write json buffer
        = .ok (buffer ++ VarInt.pack_write (json.length : Int) ++ json)) := by
  constructor
  · constructor
    · intro h
      by_contra hn
      rw [Component.pack_write, if_neg hn] at h
      exact Except.noConfusion h
    · intro h
      rw [Component.pack_write, if_pos h]
  · intro h
    rw [Component.pack_write, if_neg (by omega)]

/-- C8 at a concrete small component encoding (the one-byte JSON `{`):
within the cap the write succeeds and is not the over-limit error. -/
theorem c8_component_cap_witness :
    Component.pack_write [123] [] = .ok [1, 123] ∧
    Component.pack_write [123] [] ≠ .error .overLimit := by
  have h := (c8_component_cap [123] []).2 (by norm_num [MAX_COMPONENT_JSON_SIZE])
  refine ⟨?_, ?_⟩
  · rw [h]
    decide
  · intro hc
    exact absurd ((c8_component_cap [123] []).1.mp hc)
      (by norm_num [MAX_COMPONENT_JSON_SIZE])

/-! ### Claims C9 and C10 — the player counter -/

/-- `PlayerCount` (src/network.rs lines 65-116): a shared `AtomicU32` counter
`count` with a fixed maximum `maxPlayers` (`max` in the source).  Both values
are u32, hence below `2 ^ 32`. -/
structure PlayerCount where
  count : Nat
  maxPlayers : Nat
  deriving DecidableEq

/-- `PlayerCount::try_add` (src/network.rs lines 80-102), the sequential
rendering of the compare-exchange loop (without interference the CAS commits
on the first iteration): compute `count + 1` — a u32 addition, wrapping
modulo `2 ^ 32` — fail leaving the counter unchanged when the result exceeds
the maximum, else commit it.  Returns success and the resulting state. -/
def PlayerCount.try_add (pc : PlayerCount) : Bool × PlayerCount :=
  let new := (pc.count + 1) % 2 ^ 32
  if new > pc.maxPlayers then (false, pc) else (true, { pc with count := new })

/-- `PlayerCount::remove_player` (src/network.rs lines 104-106):
`fetch_sub(1)` on the `AtomicU32`, which always wraps modulo `2 ^ 32` with no
underflow check. -/
def PlayerCount.remove_player (pc : PlayerCount) : PlayerCount :=
  { pc with count := (pc.count + 2 ^ 32 - 1) % 2 ^ 32 }

/-- `PlayerCount::get` (src/network.rs lines 108-110). -/
def PlayerCount.get (pc : PlayerCount) : Nat := pc.count

/-- C9 counterexample: the claim says that with `max_players = 0` every
`try_add` fails.  At `count = 2 ^ 32 - 1` — reachable through the
`remove_player` underflow — the wrapping `count + 1` is 0, which does not
exceed the maximum, so `try_add` succeeds and resets the counter to 0. -/
theorem c9_try_add_wrap_counterexample :
    PlayerCount.try_add ⟨4294967295, 0⟩ = (true, ⟨0, 0⟩) := by decide

/-- C9 as amended: as long as `count + 1` does not overflow u32, `try_add`
fails leaving the counter unchanged exactly when `count + 1` exceeds the
maximum (in particular always when the maximum is 0), and otherwise commits
an increment of exactly one; at `count = 2 ^ 32 - 1` the increment wraps to 0
and `try_add` succeeds. -/
theorem c9_try_add (pc : PlayerCount) (hc : pc.count + 1 < 2 ^ 32) :
    (PlayerCount.try_add pc = (false, pc) ↔ pc.count + 1 > pc.maxPlayers) ∧
    (pc.count + 1 ≤ pc.maxPlayers →
      PlayerCount.try_add pc = (true, { pc with count := pc.count + 1 })) := by
  have hmod : (pc.count + 1) % 2 ^ 32 = pc.count + 1 := Nat.mod_eq_of_lt hc
  constructor
  · constructor
    · intro h
      by_contra hn
      rw [PlayerCount.try_add] at h
      simp only [hmod, if_neg hn] at h
      have h₂ := congrArg Prod.fst h
      exact Bool.noConfusion h₂
    · intro h
      rw [PlayerCount.try_add]
      simp only [hmod, if_pos h]
  · intro h
    have hn : ¬ (pc.count + 1 > pc.maxPlayers) := by omega
    rw [PlayerCount.try_add]
    simp only [hmod]
    rw [if_neg hn]

/-- C9 as amended, at a concrete state: with the counter at 0 and
`max_players = 0` the increment is refused and the counter stays 0. -/
theorem c9_try_add_witness :
    PlayerCount.try_add ⟨0, 0⟩ = (false, ⟨0, 0⟩) :=
  (c9_try_add ⟨0, 0⟩ (by norm_num)).1.mpr (by norm_num)

/-- C10: `remove_player` decrements unconditionally with no underflow check:
called at count 0 the u32 counter wraps to 4294967295, after which `get`
exceeds any maximum below `2 ^ 32 - 1` and the invariant `count ≤ max` fails;
at positive counts it decrements by exactly one. -/
theorem c10_remove_player_wraps (maxP c : Nat) (hmax : maxP < 4294967295) :
    PlayerCount.get (PlayerCount.remove_player ⟨0, maxP⟩) = 4294967295 ∧
    maxP < PlayerCount.get (PlayerCount.remove_player ⟨0, maxP⟩) ∧
    (0 < c → c < 2 ^ 32 → PlayerCount.get (PlayerCount.remove_player ⟨c, maxP⟩) = c - 1) := by
  refine ⟨?_, ?_, ?_⟩
  · rw [PlayerCount.remove_player, PlayerCount.get]
    simp
  · rw [PlayerCount.remove_player, PlayerCount.get]
    simpa using hmax
  · intro h1 h2
    rw [PlayerCount.remove_player, PlayerCount.get]
    simp only
    omega

/-- C10 at a concrete configuration (`max_players = 20`). -/
theorem c10_remove_player_wraps_witness :
    PlayerCount.get (PlayerCount.remove_player ⟨0, 20⟩) = 4294967295 ∧
    20 < PlayerCount.get (PlayerCount.remove_player ⟨0, 20⟩) :=
  ⟨(c10_remove_player_wraps 20 1 (by norm_num)).1,
   (c10_remove_player_wraps 20 1 (by norm_num)).2.1⟩

/-- C3 at a concrete state: after consuming a packet with the identity block
function and the all-zero register, the stored encoder state is unchanged. -/
theorem c3_cipher_state_not_continuous_witness :
    (PacketEncoderState.consume id ⟨some (List.replicate 16 0)⟩
        InStatus.PacketStatusInRequest).2 = ⟨some (List.replicate 16 0)⟩ :=
  c3_cipher_state_not_continuous.1 id ⟨some (List.replicate 16 0)⟩
    InStatus.PacketStatusInRequest
end Soulflame
